import Mathlib

/-!
Shallow embedding of the local linear-algebra codec demonstrated in
`Section 5 - Classification and Regression/5.1/ml.linalg.ipynb`.

The notebook itself only calls the library's constructors
(`Vectors.sparse`, `Matrices.dense`, `Matrices.sparse`) and prints the
results; the codec's own code is not part of the repository, so every
operation below is modelled from the spec's description of the codec
(dense/sparse vectors and matrices, construction-time validation,
expansion/compression, diagnostic rendering).  Numeric values are
modelled as rationals: the codec performs no rounding arithmetic, only
storage, comparison against a tolerance, and rendering.
-/

namespace MlLinalg

/-- Modelled from the spec: the single error kind `InvalidEncoding`,
raised synchronously for any structural violation of the data-model
invariants.  The accompanying human-readable description is not
modelled. -/
inductive EncodingError where
  | invalidEncoding
deriving DecidableEq, Repr

/-- Modelled from the spec: a dense vector is an ordered sequence of
floating-point values, one per index, no gaps. -/
structure DenseVector where
  values : List ℚ
deriving DecidableEq, Repr

/-- Modelled from the spec: a sparse vector is a logical length together
with a strictly increasing index sequence and a parallel value
sequence; indices not listed are implicitly zero. -/
structure SparseVector where
  length : ℕ
  indices : List ℕ
  values : List ℚ
deriving DecidableEq, Repr

/-- Modelled from the spec: a column-major dense matrix, `R` rows and
`C` columns backed by a flat sequence of `R*C` values where logical
position `(r, c)` lives at flat index `c*R + r`. -/
structure DenseMatrix where
  numRows : ℕ
  numCols : ℕ
  values : List ℚ
deriving DecidableEq, Repr

/-- Modelled from the spec: a compressed-sparse-column matrix, `R` rows
and `C` columns with a column-pointer sequence of length `C+1` and
parallel row-index and value sequences. -/
structure SparseMatrix where
  numRows : ℕ
  numCols : ℕ
  colPtrs : List ℕ
  rowIndices : List ℕ
  values : List ℚ
deriving DecidableEq, Repr

/-- A Boolean check that a sequence of indices is strictly increasing. -/
def strictlyIncreasing : List ℕ → Bool
  | [] => true
  | [_] => true
  | a :: b :: t => decide (a < b) && strictlyIncreasing (b :: t)

/-- A Boolean check that a sequence of offsets is non-decreasing. -/
def nonDecreasing : List ℕ → Bool
  | [] => true
  | [_] => true
  | a :: b :: t => decide (a ≤ b) && nonDecreasing (b :: t)

/-- Modelled from the spec: `denseVectorFrom` wraps the sequence as-is;
no constraints beyond non-negative length. -/
def denseVectorFrom (vals : List ℚ) : DenseVector :=
  ⟨vals⟩

/-- Modelled from the spec: `sparseVectorFrom(length, indices, values)`
fails with `InvalidEncoding` when the index and value sequences differ
in length, when any index is outside `[0, length)`, or when the indices
are not strictly increasing. -/
def sparseVectorFrom (n : ℕ) (indices : List ℕ) (vals : List ℚ) :
    Except EncodingError SparseVector :=
  if indices.length ≠ vals.length then .error .invalidEncoding
  else if indices.any (fun i => n ≤ i) then .error .invalidEncoding
  else if ! strictlyIncreasing indices then .error .invalidEncoding
  else .ok ⟨n, indices, vals⟩

/-- Modelled from the spec: `toDense` produces a length-`length`
sequence initialized to 0.0, then sets `result[indices[k]] = values[k]`
for each `k`. -/
def toDense (s : SparseVector) : DenseVector :=
  ⟨(s.indices.zip s.values).foldl (fun acc p => acc.set p.1 p.2)
    (List.replicate s.length 0)⟩

/-- The left-to-right scan behind `toSparse`: starting at index `i`,
retain each position whose value exceeds the tolerance in absolute
value, pairing it with its index. -/
def sparsify (tol : ℚ) : ℕ → List ℚ → List (ℕ × ℚ)
  | _, [] => []
  | i, v :: t =>
    if tol < |v| then (i, v) :: sparsify tol (i + 1) t
    else sparsify tol (i + 1) t

/-- Modelled from the spec: `toSparse` scans left to right, retaining
index `i` if `abs(values[i]) > tolerance`, building the index and value
sequences in increasing index order. -/
def toSparse (d : DenseVector) (tol : ℚ) : SparseVector :=
  ⟨d.values.length, (sparsify tol 0 d.values).map Prod.fst,
    (sparsify tol 0 d.values).map Prod.snd⟩

/-- Modelled from the spec: `denseMatrixFrom(rows, cols, columnMajorValues)`
fails with `InvalidEncoding` when the value sequence does not have
exactly `rows*cols` entries. -/
def denseMatrixFrom (rows cols : ℕ) (vals : List ℚ) :
    Except EncodingError DenseMatrix :=
  if vals.length ≠ rows * cols then .error .invalidEncoding
  else .ok ⟨rows, cols, vals⟩

/-- Modelled from the spec: dense element access `at(r, c)` returns
`columnMajorValues[c*rows + r]` (0.0 outside the backing sequence). -/
def DenseMatrix.entryAt (m : DenseMatrix) (r c : ℕ) : ℚ :=
  m.values.getD (c * m.numRows + r) 0

/-- Modelled from the spec: `sparseMatrixFrom(rows, cols, colPtr, rowIdx,
values)` fails with `InvalidEncoding` when `len(colPtr) != cols+1`, when
`colPtr` is not non-decreasing, when `colPtr[0] != 0`, when
`colPtr[cols] != len(rowIdx)`, when `len(rowIdx) != len(values)`, or
when any row index is outside `[0, rows)`. -/
def sparseMatrixFrom (rows cols : ℕ) (colPtr rowIdx : List ℕ)
    (vals : List ℚ) : Except EncodingError SparseMatrix :=
  if colPtr.length ≠ cols + 1 then .error .invalidEncoding
  else if ! nonDecreasing colPtr then .error .invalidEncoding
  else if colPtr.getD 0 0 ≠ 0 then .error .invalidEncoding
  else if colPtr.getD cols 0 ≠ rowIdx.length then .error .invalidEncoding
  else if rowIdx.length ≠ vals.length then .error .invalidEncoding
  else if rowIdx.any (fun r => rows ≤ r) then .error .invalidEncoding
  else .ok ⟨rows, cols, colPtr, rowIdx, vals⟩

/-- Column `c`'s slice of the stored (row index, value) pairs: the
entries between offsets `colPtr[c]` and `colPtr[c+1]`. -/
def SparseMatrix.colSlice (m : SparseMatrix) (c : ℕ) : List (ℕ × ℚ) :=
  ((m.rowIndices.zip m.values).drop (m.colPtrs.getD c 0)).take
    (m.colPtrs.getD (c + 1) 0 - m.colPtrs.getD c 0)

/-- Modelled from the spec: sparse element access `at(r, c)` scans the
slice `rowIdx[colPtr[c]:colPtr[c+1]]` for `r` and returns the matching
value or 0.0. -/
def SparseMatrix.entryAt (m : SparseMatrix) (r c : ℕ) : ℚ :=
  match (m.colSlice c).find? (fun p => p.1 == r) with
  | some p => p.2
  | none => 0

/-- Modelled from the spec: `toDenseMatrix` expands a CSC matrix
column-major, one column at a time: each column starts as `rows` zeros
and receives the values of its slice at their row indices. -/
def toDenseMatrix (m : SparseMatrix) : DenseMatrix :=
  ⟨m.numRows, m.numCols,
    (List.range m.numCols).flatMap fun c =>
      (m.colSlice c).foldl (fun acc p => acc.set p.1 p.2)
        (List.replicate m.numRows 0)⟩

/-- Column `c` of a dense matrix: `rows` consecutive values starting at
flat offset `c*rows`. -/
def DenseMatrix.column (m : DenseMatrix) (c : ℕ) : List ℚ :=
  (m.values.drop (c * m.numRows)).take m.numRows

/-- Modelled from the spec: `toSparseMatrix` compresses a dense matrix
one column at a time (preserving the non-decreasing column-pointer
invariant), retaining within each column the entries whose absolute
value exceeds the tolerance. -/
def toSparseMatrix (m : DenseMatrix) (tol : ℚ) : SparseMatrix :=
  let cols := (List.range m.numCols).map fun c => sparsify tol 0 (m.column c)
  ⟨m.numRows, m.numCols,
    List.scanl (fun a b => a + b) 0 (cols.map List.length),
    cols.flatten.map Prod.fst,
    cols.flatten.map Prod.snd⟩

/-- Modelled from the spec: locale-independent decimal formatting of a
value.  Integral values are rendered with a single trailing zero digit
(as in the notebook's captured output, e.g. `9.0`); non-integral
rationals, outside what the source exercises, fall back to a fraction. -/
def renderValue (q : ℚ) : String :=
  if q.den = 1 then toString q.num ++ ".0"
  else toString q.num ++ "/" ++ toString q.den

/-- Modelled from the spec: a dense vector renders as
`[v0, v1, ..., vN-1]`. -/
def renderDenseVector (d : DenseVector) : String :=
  "[" ++ String.intercalate ", " (d.values.map renderValue) ++ "]"

/-- Modelled from the spec: a sparse vector renders as
`(length,[i0,i1,...],[v0,v1,...])`. -/
def renderSparseVector (s : SparseVector) : String :=
  "(" ++ toString s.length ++ ",[" ++
    String.intercalate "," (s.indices.map toString) ++ "],[" ++
    String.intercalate "," (s.values.map renderValue) ++ "])"

/-- One `(row,col) value` diagnostic line of the sparse-matrix
rendering. -/
def entryLine (c : ℕ) (p : ℕ × ℚ) : String :=
  "(" ++ toString p.1 ++ "," ++ toString c ++ ") " ++ renderValue p.2

/-- The stored non-zero entries of a sparse matrix as `(row, col, value)`
triples in column-major traversal order: all of column 0's slice in
stored order, then column 1's, and so on. -/
def columnMajorEntries (m : SparseMatrix) : List (ℕ × ℕ × ℚ) :=
  (List.range m.numCols).flatMap fun c => (m.colSlice c).map fun p => (p.1, c, p.2)

/-- Modelled from the spec: a sparse matrix renders as a
`"R X C CSCMatrix"` header followed by one `(row,col) value` line per
stored non-zero, in column-major traversal order. -/
def renderSparseMatrix (m : SparseMatrix) : String :=
  String.intercalate "\n"
    ((toString m.numRows ++ " X " ++ toString m.numCols ++ " CSCMatrix") ::
      (List.range m.numCols).flatMap fun c => (m.colSlice c).map (entryLine c))

/-- The sparse matrix the notebook constructs with
`Matrices.sparse(3, 2, [0, 1, 3], [0, 2, 1], [9, 6, 8])`. -/
def smEx : SparseMatrix :=
  ⟨3, 2, [0, 1, 3], [0, 2, 1], [9, 6, 8]⟩

/-- The dense matrix the notebook constructs with
`Matrices.dense(3, 2, [1, 3, 5, 2, 4, 6])`. -/
def dmEx : DenseMatrix :=
  ⟨3, 2, [1, 3, 5, 2, 4, 6]⟩

/-- The sparse vector the notebook constructs with
`Vectors.sparse(3, [0, 2], [1.0, 3.0])`. -/
def svEx : SparseVector :=
  ⟨3, [0, 2], [1, 3]⟩

end MlLinalg

namespace MlLinalg

/-- Folding the `set` steps of `toDense` over the pairs produced by a
tolerance-0 scan that starts at offset `pre.length` rebuilds the scanned
list in place after the prefix `pre`. -/
theorem foldl_set_sparsify (l pre : List ℚ) :
    (sparsify 0 pre.length l).foldl (fun acc p => acc.set p.1 p.2)
      (pre ++ List.replicate l.length 0) = pre ++ l := by
  induction l generalizing pre with
  | nil => simp [sparsify]
  | cons v t ih =>
    have hrep : List.replicate (v :: t).length (0 : ℚ) =
        0 :: List.replicate t.length 0 := by
      simp [List.replicate_succ]
    have hlen : (pre ++ [v]).length = pre.length + 1 := by simp
    by_cases hv : (0 : ℚ) < |v|
    · have hsp : sparsify 0 pre.length (v :: t) =
          (pre.length, v) :: sparsify 0 (pre.length + 1) t := by
        simp [sparsify, hv]
      rw [hsp, List.foldl_cons]
      have hset : (pre ++ List.replicate (v :: t).length 0).set pre.length v =
          (pre ++ [v]) ++ List.replicate t.length 0 := by
        rw [hrep, List.set_append, if_neg (lt_irrefl pre.length)]
        simp
      rw [hset]
      have := ih (pre ++ [v])
      rw [hlen] at this
      rw [this]
      simp
    · have hv0 : v = 0 := by
        have h1 : |v| ≤ 0 := le_of_not_lt hv
        have h2 : |v| = 0 := le_antisymm h1 (abs_nonneg v)
        exact abs_eq_zero.mp h2
      have hsp : sparsify 0 pre.length (v :: t) =
          sparsify 0 (pre.length + 1) t := by
        simp [sparsify, hv]
      have hinit : pre ++ List.replicate (v :: t).length (0 : ℚ) =
          (pre ++ [v]) ++ List.replicate t.length 0 := by
        rw [hrep, hv0]
        simp
      rw [hsp, hinit]
      have := ih (pre ++ [v])
      rw [hlen] at this
      rw [this, hv0]
      simp

/-- C1: for every dense vector `v`, compressing with tolerance 0 and
expanding back reproduces `v` exactly: `toDense (toSparse v 0) = v`. -/
theorem toDense_toSparse_roundtrip (v : DenseVector) :
    toDense (toSparse v 0) = v := by
  cases v with
  | mk l =>
    simp only [toDense, toSparse]
    congr 1
    rw [List.zip_map']
    have heta : List.map (fun p => (Prod.fst p, Prod.snd p))
        (sparsify 0 0 l) = sparsify 0 0 l := by simp
    rw [heta]
    have h := foldl_set_sparsify l []
    simpa using h

end MlLinalg

namespace MlLinalg

/-- C3: the sparse matrix constructed from
`sparseMatrixFrom(3, 2, [0,1,3], [0,2,1], [9,6,8])` satisfies
`at(0,0)=9.0`, `at(2,1)=6.0`, `at(1,1)=8.0`, and `at(r,c)=0.0` at every
other position with `r` in `[0,3)` and `c` in `[0,2)`; element access
scans the column's slice of the row-index sequence and returns the
matching value or 0.0. -/
theorem sparseMatrix_example_entries :
    sparseMatrixFrom 3 2 [0, 1, 3] [0, 2, 1] [9, 6, 8] = .ok smEx ∧
    smEx.entryAt 0 0 = 9 ∧ smEx.entryAt 2 1 = 6 ∧ smEx.entryAt 1 1 = 8 ∧
    ∀ r ∈ List.range 3, ∀ c ∈ List.range 2,
      ¬(r = 0 ∧ c = 0) → ¬(r = 2 ∧ c = 1) → ¬(r = 1 ∧ c = 1) →
        smEx.entryAt r c = 0 :=
  ⟨rfl, by decide, by decide, by decide, by decide⟩

/-- C4: the dense matrix constructed from
`denseMatrixFrom(3, 2, [1,3,5,2,4,6])` satisfies `at(0,0)=1`,
`at(1,0)=3`, `at(2,0)=5`, `at(0,1)=2`, `at(1,1)=4`, `at(2,1)=6`; in
general, for every dense matrix, `at(r,c)` returns
`columnMajorValues[c*rows + r]` (column-major layout). -/
theorem denseMatrix_example_entries :
    denseMatrixFrom 3 2 [1, 3, 5, 2, 4, 6] = .ok dmEx ∧
    dmEx.entryAt 0 0 = 1 ∧ dmEx.entryAt 1 0 = 3 ∧ dmEx.entryAt 2 0 = 5 ∧
    dmEx.entryAt 0 1 = 2 ∧ dmEx.entryAt 1 1 = 4 ∧ dmEx.entryAt 2 1 = 6 ∧
    ∀ (m : DenseMatrix) (r c : ℕ),
      m.entryAt r c = m.values.getD (c * m.numRows + r) 0 :=
  ⟨rfl, by decide, by decide, by decide, by decide, by decide, by decide,
    fun _ _ _ => rfl⟩

/-- C7: the sparse vector constructed from
`sparseVectorFrom(3, [0,2], [1.0,3.0])` renders as the exact text
`(3,[0,2],[1.0,3.0])`, and `toDense` of it equals the dense vector
`[1.0, 0.0, 3.0]`. -/
theorem sparseVector_example_render_toDense :
    sparseVectorFrom 3 [0, 2] [1, 3] = .ok svEx ∧
    renderSparseVector svEx = "(3,[0,2],[1.0,3.0])" ∧
    toDense svEx = denseVectorFrom [1, 0, 3] :=
  ⟨rfl, by decide, by decide⟩

/-- C9: for every dense vector, the diagnostic rendering is the text
`[v0, v1, ..., vN-1]` — the values in index order, comma-separated
inside square brackets, with decimal formatting — as the notebook's
captured output `[1.0, 0.0, 3.0]` for the dense vector `[1.0, 0.0, 3.0]`
shows concretely. -/
theorem renderDenseVector_format :
    (∀ d : DenseVector, renderDenseVector d =
      "[" ++ String.intercalate ", " (d.values.map renderValue) ++ "]") ∧
    renderDenseVector (denseVectorFrom [1, 0, 3]) = "[1.0, 0.0, 3.0]" :=
  ⟨fun _ => rfl, by decide⟩

/-- C10: sparse-matrix construction does not require the row indices
within one column's slice to be increasing: the notebook's input with
column 1's row indices equal to `[2, 1]` (not strictly increasing)
constructs successfully, and the stored entries keep construction order,
the column-major entry list placing `(2,1) 6.0` before `(1,1) 8.0`. -/
theorem sparseMatrix_column_order :
    sparseMatrixFrom 3 2 [0, 1, 3] [0, 2, 1] [9, 6, 8] = .ok smEx ∧
    (smEx.colSlice 1).map Prod.fst = [2, 1] ∧
    strictlyIncreasing [2, 1] = false ∧
    columnMajorEntries smEx = [(0, 0, 9), (2, 1, 6), (1, 1, 8)] :=
  ⟨rfl, by decide, by decide, by decide⟩

/-- C8: for every sparse matrix, the diagnostic rendering is a
`"R X C CSCMatrix"` header followed by one `(row,col) value` line per
stored non-zero in column-major traversal order; concretely the
notebook's matrix renders exactly as its captured output. -/
theorem renderSparseMatrix_format :
    (∀ m : SparseMatrix,
      renderSparseMatrix m = String.intercalate "\n"
        ((toString m.numRows ++ " X " ++ toString m.numCols ++ " CSCMatrix") ::
          (columnMajorEntries m).map fun t => entryLine t.2.1 (t.1, t.2.2))) ∧
    renderSparseMatrix smEx =
      "3 X 2 CSCMatrix\n(0,0) 9.0\n(2,1) 6.0\n(1,1) 8.0" := by
  constructor
  · intro m
    simp only [renderSparseMatrix, columnMajorEntries, List.map_flatMap,
      List.map_map]
    rfl
  · decide

end MlLinalg

namespace MlLinalg

/-- C6: `sparseVectorFrom(length, indices, values)` fails with
`InvalidEncoding` exactly when the index and value sequences differ in
length, some index lies outside `[0, length)`, or the indices are not
strictly increasing; every input violating none of these constructs
successfully. -/
theorem sparseVectorFrom_invalidEncoding_iff :
    (∀ (n : ℕ) (indices : List ℕ) (vals : List ℚ),
      sparseVectorFrom n indices vals = .error .invalidEncoding ↔
        (indices.length ≠ vals.length ∨ (∃ i ∈ indices, n ≤ i) ∨
          strictlyIncreasing indices = false)) ∧
    (∀ (n : ℕ) (indices : List ℕ) (vals : List ℚ),
      ¬(indices.length ≠ vals.length ∨ (∃ i ∈ indices, n ≤ i) ∨
          strictlyIncreasing indices = false) →
        sparseVectorFrom n indices vals = .ok ⟨n, indices, vals⟩) := by
  have key : ∀ (n : ℕ) (indices : List ℕ) (vals : List ℚ),
      sparseVectorFrom n indices vals = .error .invalidEncoding ↔
        (indices.length ≠ vals.length ∨ (∃ i ∈ indices, n ≤ i) ∨
          strictlyIncreasing indices = false) := by
    intro n indices vals
    unfold sparseVectorFrom
    split_ifs with h1 h2 h3
    · exact iff_of_true rfl (Or.inl h1)
    · refine iff_of_true rfl (Or.inr (Or.inl ?_))
      simpa using h2
    · refine iff_of_true rfl (Or.inr (Or.inr ?_))
      simpa using h3
    · refine iff_of_false (by simp) ?_
      rintro (h | h | h)
      · exact h1 h
      · exact h2 (by simpa using h)
      · exact h3 (by simpa using h)
  refine ⟨key, fun n indices vals h => ?_⟩
  rw [not_or, not_or] at h
  obtain ⟨hlen, hidx, hsi⟩ := h
  have c2 : ¬(indices.any (fun i => n ≤ i) = true) := fun hc =>
    hidx (by simpa using hc)
  have c3 : ¬((! strictlyIncreasing indices) = true) := fun hc =>
    hsi (by simpa using hc)
  rw [sparseVectorFrom, if_neg hlen, if_neg c2, if_neg c3]

/-- C5: `sparseMatrixFrom(rows, cols, colPtr, rowIdx, values)` fails
with `InvalidEncoding` exactly when the column-pointer sequence has the
wrong length, is not non-decreasing, does not start at 0, does not end
at the non-zero count, the row-index and value sequences differ in
length, or some row index is outside `[0, rows)`; in particular the
notebook-shaped input with `colPtr = [0,1,2]` and three non-zeros
fails. -/
theorem sparseMatrixFrom_invalidEncoding_iff :
    (∀ (rows cols : ℕ) (colPtr rowIdx : List ℕ) (vals : List ℚ),
      sparseMatrixFrom rows cols colPtr rowIdx vals =
          .error .invalidEncoding ↔
        (colPtr.length ≠ cols + 1 ∨ nonDecreasing colPtr = false ∨
          colPtr.getD 0 0 ≠ 0 ∨ colPtr.getD cols 0 ≠ rowIdx.length ∨
          rowIdx.length ≠ vals.length ∨ ∃ r ∈ rowIdx, rows ≤ r)) ∧
    sparseMatrixFrom 3 2 [0, 1, 2] [0, 2, 1] [9, 6, 8] =
      .error .invalidEncoding := by
  refine ⟨fun rows cols colPtr rowIdx vals => ?_, rfl⟩
  unfold sparseMatrixFrom
  split_ifs with h1 h2 h3 h4 h5 h6
  · exact iff_of_true rfl (Or.inl h1)
  · exact iff_of_true rfl (Or.inr (Or.inl (by simpa using h2)))
  · exact iff_of_true rfl (Or.inr (Or.inr (Or.inl h3)))
  · exact iff_of_true rfl (Or.inr (Or.inr (Or.inr (Or.inl h4))))
  · exact iff_of_true rfl
      (Or.inr (Or.inr (Or.inr (Or.inr (Or.inl h5)))))
  · exact iff_of_true rfl
      (Or.inr (Or.inr (Or.inr (Or.inr (Or.inr (by simpa using h6))))))
  · refine iff_of_false (by simp) ?_
    rintro (h | h | h | h | h | h)
    · exact h1 h
    · exact h2 (by simpa using h)
    · exact h3 h
    · exact h4 h
    · exact h5 h
    · exact h6 (by simpa using h)

end MlLinalg

namespace MlLinalg

theorem scanl_add_getD (L : List ℕ) (a i : ℕ) (h : i ≤ L.length) :
    (List.scanl (fun x y => x + y) a L).getD i 0 = a + (L.take i).sum := by
  induction L generalizing a i with
  | nil =>
    have hi : i = 0 := Nat.le_zero.mp h
    subst hi
    simp [List.scanl]
  | cons b t ih =>
    cases i with
    | zero => simp [List.scanl_cons]
    | succ j =>
      rw [List.scanl_cons]
      have hj : j ≤ t.length := by simpa using h
      have hrec := ih (a + b) j hj
      simp only [List.singleton_append, List.getD_cons_succ]
      rw [hrec]
      simp [add_assoc]

theorem flatten_drop_sum_take (cs : List (List (ℕ × ℚ))) (i : ℕ) :
    cs.flatten.drop ((cs.map List.length).take i).sum = (cs.drop i).flatten := by
  induction i generalizing cs with
  | zero => simp
  | succ j ih =>
    cases cs with
    | nil => simp
    | cons x xs =>
      simp only [List.map_cons, List.take_succ_cons, List.sum_cons,
        List.flatten_cons, List.drop_succ_cons]
      rw [List.drop_append]
      exact ih xs

theorem flatten_slice_getElem (cs : List (List (ℕ × ℚ))) (i : ℕ)
    (h : i < cs.length) :
    (cs.flatten.drop ((cs.map List.length).take i).sum).take
        (((cs.map List.length).take (i + 1)).sum -
          ((cs.map List.length).take i).sum) =
      cs[i] := by
  have hlenmap : i < (cs.map List.length).length := by simpa using h
  have hsum : ((cs.map List.length).take (i + 1)).sum =
      ((cs.map List.length).take i).sum + cs[i].length := by
    rw [List.sum_take_succ _ i hlenmap]
    simp
  rw [flatten_drop_sum_take, hsum, Nat.add_sub_cancel_left,
    List.drop_eq_getElem_cons h, List.flatten_cons]
  exact List.take_left _ _

theorem flatMap_congr_mem {α β : Type} (l : List α) (f g : α → List β)
    (h : ∀ x ∈ l, f x = g x) : l.flatMap f = l.flatMap g := by
  induction l with
  | nil => simp
  | cons x xs ih =>
    rw [List.flatMap_cons, List.flatMap_cons, h x (by simp),
      ih fun y hy => h y (by simp [hy])]

theorem range_flatMap_columns (R : ℕ) (n : ℕ) (l : List ℚ)
    (h : l.length = R * n) :
    (List.range n).flatMap (fun c => (l.drop (c * R)).take R) = l := by
  induction n generalizing l with
  | zero =>
    have : l = [] := List.eq_nil_of_length_eq_zero (by simpa using h)
    simp [this]
  | succ k ih =>
    rw [List.range_succ_eq_map, List.flatMap_cons, List.flatMap_map]
    have hstep : ∀ c : ℕ,
        (l.drop (Nat.succ c * R)).take R =
          ((l.drop R).drop (c * R)).take R := by
      intro c
      rw [List.drop_drop]
      congr 2
      rw [Nat.succ_mul]
      exact Nat.add_comm _ _
    have hrw : (List.range k).flatMap (fun c => (l.drop (Nat.succ c * R)).take R) =
        (List.range k).flatMap (fun c => ((l.drop R).drop (c * R)).take R) :=
      flatMap_congr_mem _ _ _ fun c _ => hstep c
    have hlen' : (l.drop R).length = R * k := by
      simp only [List.length_drop, h, Nat.mul_succ]
      omega
    rw [hrw, ih (l.drop R) hlen']
    simp


theorem toDenseMatrix_toSparseMatrix_eq (m : DenseMatrix)
    (hlen : m.values.length = m.numRows * m.numCols) :
    toDenseMatrix (toSparseMatrix m 0) = m := by
  obtain ⟨R, C, vals⟩ := m
  have hlen' : vals.length = R * C := hlen
  set cols : List (List (ℕ × ℚ)) :=
    (List.range C).map fun c => sparsify 0 0 ((vals.drop (c * R)).take R)
    with hcols
  have hcolslen : (cols.map List.length).length = C := by
    rw [hcols]; simp
  have hs : toSparseMatrix ⟨R, C, vals⟩ 0 = SparseMatrix.mk R C
      (List.scanl (fun x y => x + y) 0 (cols.map List.length))
      (cols.flatten.map Prod.fst) (cols.flatten.map Prod.snd) := rfl
  rw [hs]
  have hzip : (cols.flatten.map Prod.fst).zip (cols.flatten.map Prod.snd)
      = cols.flatten := by
    rw [List.zip_map']
    simp
  have hslice : ∀ c, c < C →
      SparseMatrix.colSlice (SparseMatrix.mk R C
        (List.scanl (fun x y => x + y) 0 (cols.map List.length))
        (cols.flatten.map Prod.fst) (cols.flatten.map Prod.snd)) c =
      sparsify 0 0 ((vals.drop (c * R)).take R) := by
    intro c hc
    have hc1 : c ≤ (cols.map List.length).length := by rw [hcolslen]; omega
    have hc2 : c + 1 ≤ (cols.map List.length).length := by rw [hcolslen]; omega
    have hcltcols : c < cols.length := by
      have : cols.length = C := by rw [hcols]; simp
      omega
    unfold SparseMatrix.colSlice
    dsimp only
    rw [hzip, scanl_add_getD _ _ _ hc1, scanl_add_getD _ _ _ hc2]
    simp only [Nat.zero_add]
    rw [flatten_slice_getElem cols c hcltcols]
    simp only [hcols, List.getElem_map, List.getElem_range]
  unfold toDenseMatrix
  dsimp only
  simp only [DenseMatrix.mk.injEq]
  refine ⟨trivial, trivial, ?_⟩
  have hcong : (List.range C).flatMap (fun c =>
      (SparseMatrix.colSlice (SparseMatrix.mk R C
        (List.scanl (fun x y => x + y) 0 (cols.map List.length))
        (cols.flatten.map Prod.fst) (cols.flatten.map Prod.snd)) c).foldl
          (fun acc p => acc.set p.1 p.2) (List.replicate R 0)) =
      (List.range C).flatMap fun c => (vals.drop (c * R)).take R := by
    apply flatMap_congr_mem
    intro c hcmem
    have hc : c < C := List.mem_range.mp hcmem
    rw [hslice c hc]
    have h2 : R + c * R ≤ R * C := by
      calc R + c * R = (c + 1) * R := by ring
      _ ≤ C * R := Nat.mul_le_mul_right R hc
      _ = R * C := by ring
    have h3 : R ≤ vals.length - c * R := by
      rw [hlen']
      exact Nat.le_sub_of_add_le h2
    have hclen : ((vals.drop (c * R)).take R).length = R := by
      rw [List.length_take, List.length_drop]
      exact Nat.min_eq_left h3
    have hfold := foldl_set_sparsify ((vals.drop (c * R)).take R) []
    simp only [List.length_nil, List.nil_append] at hfold
    rw [hclen] at hfold
    exact hfold
  rw [hcong, range_flatMap_columns R C vals hlen']


/-- C2: for every dense matrix `m` (its backing sequence holding exactly
`rows*cols` values), compressing with tolerance 0 and expanding back
reproduces `m` exactly elementwise: `at(r,c)` of the round-tripped
matrix equals `at(r,c)` of `m` for every row `r` and column `c`. -/
theorem toDenseMatrix_toSparseMatrix_entryAt (m : DenseMatrix)
    (hlen : m.values.length = m.numRows * m.numCols) (r c : ℕ) :
    (toDenseMatrix (toSparseMatrix m 0)).entryAt r c = m.entryAt r c := by
  rw [toDenseMatrix_toSparseMatrix_eq m hlen]

/-- Witness for C2: the round-trip elementwise equality instantiated at
the notebook's dense matrix, row 1, column 1. -/
theorem toDenseMatrix_toSparseMatrix_entryAt_witness :
    dmEx.values.length = dmEx.numRows * dmEx.numCols ∧
    (toDenseMatrix (toSparseMatrix dmEx 0)).entryAt 1 1 = dmEx.entryAt 1 1 :=
  ⟨by decide, toDenseMatrix_toSparseMatrix_entryAt dmEx (by decide) 1 1⟩

end MlLinalg
